import Mathlib

/-!
Shallow embedding of the RealTutor AI backend core
(`src/models/realtutor_ai_model.py`): text as `List Char`, the Python
methods as Lean functions, the model call as an `Except`-valued oracle.
-/

namespace RealTutor

/-- Text is modelled as a list of characters (Python `str`). -/
abbrev Str := List Char

/-- Coerce a Lean string literal to the `List Char` model. -/
def str (s : String) : Str := s.data

/-- Python `str.strip()` whitespace set, restricted to ASCII. -/
def isPySpace (c : Char) : Bool :=
  c == ' ' || c == '\t' || c == '\n' || c == '\r' || c == '\x0b' || c == '\x0c'

/-- Python `str.strip()`: drop leading and trailing whitespace. -/
def pyStrip (s : Str) : Str :=
  ((s.dropWhile isPySpace).reverse.dropWhile isPySpace).reverse

/-- Python `str.lower()` (ASCII). -/
def lower (s : Str) : Str := s.map Char.toLower

/-- Index of the first occurrence of `pat` as a substring (Python `str.find`). -/
def firstSubIdx (pat : Str) : Str → Option Nat
  | [] => if pat.isEmpty then some 0 else none
  | c :: cs =>
    if pat.isPrefixOf (c :: cs) then some 0
    else (firstSubIdx pat cs).map (· + 1)

/-- Python `pat in s` substring test. -/
def hasSub (pat s : Str) : Bool := (firstSubIdx pat s).isSome

/-- Case-insensitive prefix test (regex `re.IGNORECASE` match at the start). -/
def ciPrefix : Str → Str → Bool
  | [], _ => true
  | _ :: _, [] => false
  | a :: as, b :: bs => (a.toLower == b.toLower) && ciPrefix as bs

/-- Least index `j ≥ i` with `p (s.get j)` (regex scan from offset `i`). -/
def findFrom (p : Char → Bool) (s : Str) (i : Nat) : Option Nat :=
  ((s.drop i).findIdx? p).map (· + i)

/-- Python `s.replace(pat, rep, 1)`: replace the first occurrence only. -/
def replaceFirst (pat rep s : Str) : Str :=
  match firstSubIdx pat s with
  | some i => s.take i ++ rep ++ s.drop (i + pat.length)
  | none => s

/-- Python `s.replace(pat, rep)`: replace every non-overlapping occurrence,
left to right. Structural recursion on a fuel argument (the input length
suffices, since every step consumes at least one character). -/
def replaceAllF (pat rep : Str) : Nat → Str → Str
  | _, [] => []
  | 0, s => s
  | fuel + 1, c :: cs =>
    if pat.isPrefixOf (c :: cs) && decide (0 < pat.length) then
      rep ++ replaceAllF pat rep fuel (List.drop pat.length (c :: cs))
    else
      c :: replaceAllF pat rep fuel cs

/-- Python `s.replace(pat, rep)`. -/
def replaceAll (pat rep s : Str) : Str := replaceAllF pat rep s.length s

/-- Python `'\n'.join` over a list of strings. -/
def joinNl (xs : List Str) : Str := List.intercalate (str "\n") xs

/-- The code-fence marker. -/
def fence : Str := str "```"

/-- The opener phrases of `_clean_response`'s preamble regex, in the order
of the source's alternation. -/
def openers : List Str :=
  [str "Here's", str "Here is", str "I'll", str "I will", str "Let me",
   str "Sure", str "Certainly", str "Absolutely", str "Ok", str "Okay"]

/-- The closer phrases of `_clean_response`'s postamble regex, in the order
of the source's alternation. -/
def closers : List Str :=
  [str "This", str "Hope", str "Is there", str "Let me know", str "Feel free",
   str "Do you", str "Would you", str "If you", str "Hope this helps",
   str "Does this", str "That should", str "This should"]

/-- The preamble strip of `_clean_response`:
`re.sub(r"^(Here's|…|Okay).*?\n", '', s, flags=IGNORECASE|DOTALL)`.
The pattern is anchored, so at most one match, at position 0: the first
alternative that is a case-insensitive prefix and is followed by a newline
somewhere at or after its end; the match runs through that first newline. -/
def stripPreamble (s : Str) : Str :=
  match openers.find?
      (fun o => ciPrefix o s && (findFrom (fun c => c == '\n') s o.length).isSome) with
  | some o =>
    match findFrom (fun c => c == '\n') s o.length with
    | some j => s.drop (j + 1)
    | none => s
  | none => s

/-- The postamble strip of `_clean_response`:
`re.sub(r"\n(This|…|This should).*?\$", '', s, flags=IGNORECASE|DOTALL)`.
Note the source escapes the dollar sign, so `\$` matches a literal `'$'`
character, not end of text: a match is a newline, then a closer phrase
(case-insensitive), then the shortest run of characters ending at a literal
dollar sign. All non-overlapping matches are removed, left to right.
Structural recursion on a fuel argument (the input length suffices, since
every step consumes at least one character). -/
def stripClosersF : Nat → Str → Str
  | _, [] => []
  | 0, s => s
  | fuel + 1, c :: cs =>
    if c == '\n' then
      match closers.find?
          (fun p => ciPrefix p cs && (findFrom (fun ch => ch == '$') cs p.length).isSome) with
      | some p =>
        match findFrom (fun ch => ch == '$') cs p.length with
        | some j => stripClosersF fuel (cs.drop (j + 1))
        | none => c :: stripClosersF fuel cs
      | none => c :: stripClosersF fuel cs
    else c :: stripClosersF fuel cs

/-- The postamble strip applied with sufficient fuel. -/
def stripClosers (s : Str) : Str := stripClosersF s.length s

/-- `RealTutorAI._clean_response`. -/
def clean (response : Str) : Str :=
  let r1 := stripPreamble response
  let r2 := stripClosers r1
  let r3 :=
    match firstSubIdx fence r2 with
    | some i =>
      if (pyStrip (r2.take i)).length < 100 then fence ++ r2.drop (i + 3) else r2
    | none => r2
  pyStrip r3

/-- The code-like tokens `_process_code_response` looks for. -/
def codeTokens : List Str :=
  [str ";", str "()", ['\x7b', '\x7d'], str "def ", str "function"]

/-- `RealTutorAI._process_code_response`. -/
def processCodeResponse (response language : Str) : Str :=
  let r1 := clean response
  let r2 :=
    if hasSub fence r1 && !(hasSub (fence ++ language) r1) then
      replaceFirst fence (fence ++ language) r1
    else r1
  if !(hasSub fence r2) && codeTokens.any (fun t => hasSub t r2) then
    fence ++ language ++ str "\n" ++ r2 ++ str "\n" ++ fence
  else r2

/-- The query phrases `_process_response` treats as definitional questions. -/
def queryTriggers : List Str :=
  [str "what is", str "how does", str "explain", str "define"]

/-- `RealTutorAI._process_response`. -/
def processResponse (response query : Str) : Str :=
  let r := clean response
  if queryTriggers.any (fun t => hasSub t (lower query)) then
    if hasSub fence r && decide (r.length < 300) then
      replaceAll (str "javascript") []
        (replaceAll (str "python") [] (replaceAll fence [] r))
    else r
  else r

/-- The extension table of `_detect_language`. -/
def langMap : List (Str × Str) :=
  [(str "py", str "python"), (str "js", str "javascript"), (str "ts", str "typescript"),
   (str "jsx", str "jsx"), (str "tsx", str "tsx"), (str "html", str "html"),
   (str "css", str "css"), (str "java", str "java"), (str "cpp", str "cpp"),
   (str "c", str "c"), (str "cs", str "csharp"), (str "go", str "go"),
   (str "rb", str "ruby"), (str "php", str "php"), (str "swift", str "swift"),
   (str "kt", str "kotlin"), (str "rs", str "rust"), (str "scala", str "scala")]

/-- Python `s.split('.')[-1]`: the text after the last dot (the whole string
when there is no dot). -/
def extLast (s : Str) : Str := (s.reverse.takeWhile (fun c => c != '.')).reverse

/-- The snippet-pattern fallback chain of `_detect_language` (the ordered
`if`/`elif` ladder after the extension table, ending in `'text'`). -/
def snippetHeuristics (code_snippet : Str) : Str :=
  if hasSub (str "def ") code_snippet && hasSub (str ":") code_snippet then
    str "python"
  else if hasSub (str "function") code_snippet && hasSub (str "\x7b") code_snippet then
    if hasSub (str "import React") code_snippet || hasSub (str "jsx") code_snippet then
      str "jsx"
    else str "javascript"
  else if hasSub (str "interface ") code_snippet || hasSub (str "type ") code_snippet then
    str "typescript"
  else if hasSub (str "<html") (lower code_snippet) then
    str "html"
  else if hasSub (str "@media") code_snippet
      || (hasSub (str "\x7b") code_snippet && hasSub (str ":") code_snippet) then
    str "css"
  else str "text"

/-- `RealTutorAI._detect_language`. -/
def detectLanguage (language file_name code_snippet : Str) : Str :=
  if language.any (fun c => !isPySpace c) then lower language
  else
    match
      (if !file_name.isEmpty then
        (langMap.find? (fun kv => kv.1 == extLast (lower file_name))).map (fun kv => kv.2)
      else none) with
    | some l => l
    | none => snippetHeuristics code_snippet

/-- The truncation marker of `_prepare_context`. -/
def truncMarker : Str := str "\n...[truncated]...\n"

/-- `RealTutorAI._prepare_context`. -/
def prepareContext (code_context : Str) : Str :=
  if code_context.length < 10 then code_context
  else if decide (8000 < code_context.length) then
    code_context.take 4000 ++ truncMarker ++ code_context.drop (code_context.length - 3000)
  else code_context

/-- The response cache `self._cache`: a Python dict preserves insertion
order, so it is modelled as an association list with the oldest entry at
the head. -/
abbrev Cache := List (Str × Str)

/-- The capacity `self._cache_limit` fixed in `__init__`. -/
def cacheLimit : Nat := 50

/-- A cache read (`cache_key in self._cache` / `self._cache[cache_key]`). -/
def cacheGet (key : Str) (c : Cache) : Option Str :=
  (c.find? (fun kv => kv.1 == key)).map (fun kv => kv.2)

/-- `RealTutorAI._update_cache`: `self._cache[key] = value` (an existing key
keeps its position, a new key goes to the end), then if the size exceeds
the limit, delete `next(iter(self._cache))`, the oldest entry. -/
def updateCache (key value : Str) (c : Cache) : Cache :=
  let c' :=
    if c.any (fun kv => kv.1 == key) then
      c.map (fun kv => if kv.1 == key then (key, value) else kv)
    else c ++ [(key, value)]
  if decide (cacheLimit < c'.length) then c'.drop 1 else c'

/-- A sequence of `put` operations folded over the cache. -/
def putList (ps : List (Str × Str)) (c : Cache) : Cache :=
  ps.foldl (fun c p => updateCache p.1 p.2 c) c

/-- Render an `Int` the way Python's f-string renders `hash(...)`. -/
def intStr (n : Int) : Str := (toString n).data

/-- The cache key of `explain_error`:
`f"error_{hash(code_context)}_{hash(error_message)}_{language}"`.
The Python `hash` is abstracted as a parameter `h`. -/
def errorKey (h : Str → Int) (code_context error_message language : Str) : Str :=
  str "error_" ++ intStr (h code_context) ++ str "_"
    ++ intStr (h error_message) ++ str "_" ++ language

/-- The dict `explain_error` passes to `self.error_chain.invoke`. -/
def errorPayload (code_context error_message language file_name : Str) :
    List (Str × Str) :=
  [(str "code_context", prepareContext code_context),
   (str "error_message", error_message),
   (str "language", detectLanguage language file_name code_context),
   (str "current_file", file_name),
   (str "user_question", str "Fix: " ++ error_message)]

/-- `RealTutorAI.explain_error`, over an `Except`-valued model oracle: the
cache is read before the `try` block, the model call is the only fallible
step, and `except Exception` yields the fenced error string. -/
def explainError (h : Str → Int) (llm : List (Str × Str) → Except Str Str)
    (code_context error_message language file_name : Str) (cache : Cache) :
    Str × Cache :=
  let cache_key := errorKey h code_context error_message language
  match cacheGet cache_key cache with
  | some v => (v, cache)
  | none =>
    match llm (errorPayload code_context error_message language file_name) with
    | Except.ok content =>
      let result := processCodeResponse content language
      (result, updateCache cache_key result cache)
    | Except.error e => (str "```\n" ++ e ++ str "\n```", cache)

/-- The cache key of `suggest_on_inactivity`:
`f"improve_{hash(code_context)}_{language}"`. -/
def improveKey (h : Str → Int) (code_context language : Str) : Str :=
  str "improve_" ++ intStr (h code_context) ++ str "_" ++ language

/-- The dict `suggest_on_inactivity` passes to `self.inactivity_chain.invoke`. -/
def improvePayload (code_context current_file language : Str) : List (Str × Str) :=
  [(str "code_context", prepareContext code_context),
   (str "current_file", current_file),
   (str "language", detectLanguage language current_file code_context),
   (str "user_question",
    str "Optimize this " ++ detectLanguage language current_file code_context
      ++ str " code for production.")]

/-- `RealTutorAI.suggest_on_inactivity` (the `recent_edits` argument is
accepted but unused by the body). -/
def suggestOnInactivity (h : Str → Int) (llm : List (Str × Str) → Except Str Str)
    (code_context current_file recent_edits language : Str) (cache : Cache) :
    Str × Cache :=
  let cache_key := improveKey h code_context language
  match cacheGet cache_key cache with
  | some v => (v, cache)
  | none =>
    match llm (improvePayload code_context current_file language) with
    | Except.ok content =>
      let result :=
        processCodeResponse content (detectLanguage language current_file code_context)
      (result, updateCache cache_key result cache)
    | Except.error e => (str "```\n" ++ e ++ str "\n```", cache)

/-- The cache key of `answer_question`:
`f"question_{hash(user_question)}_{hash(code_context[:300])}_{language}"`. -/
def questionKey (h : Str → Int) (code_context user_question language : Str) : Str :=
  str "question_" ++ intStr (h user_question) ++ str "_"
    ++ intStr (h (code_context.take 300)) ++ str "_" ++ language

/-- The dict `answer_question` passes to `self.question_chain.invoke`. -/
def questionPayload (code_context current_file user_question language : Str) :
    List (Str × Str) :=
  [(str "code_context", prepareContext code_context),
   (str "current_file", current_file),
   (str "user_question", user_question),
   (str "language", detectLanguage language current_file code_context)]

/-- `RealTutorAI.answer_question`. -/
def answerQuestion (h : Str → Int) (llm : List (Str × Str) → Except Str Str)
    (code_context current_file user_question language : Str) (cache : Cache) :
    Str × Cache :=
  let cache_key := questionKey h code_context user_question language
  match cacheGet cache_key cache with
  | some v => (v, cache)
  | none =>
    match llm (questionPayload code_context current_file user_question language) with
    | Except.ok content =>
      let result := processResponse content user_question
      (result, updateCache cache_key result cache)
    | Except.error e => (str "```\n" ++ e ++ str "\n```", cache)

/-- One element of `files_data`: a Python dict read with
`file.get('filename', 'unknown')` and `file.get('content', '')`. -/
structure FileData where
  filename : Option Str
  content : Option Str

/-- One entry of `project_summary` in `analyze_project`. -/
def fileSummary (f : FileData) : Str :=
  let filename := f.filename.getD (str "unknown")
  let content := (f.content.getD []).take 2000
  let lang := detectLanguage [] filename content
  str "File: " ++ filename ++ str " (" ++ lang ++ str ")\n" ++ content ++ str "\n---\n"

/-- The dict `analyze_project` passes to `self.project_chain.invoke`. -/
def projectPayload (files_data : List FileData) : List (Str × Str) :=
  let project_context := joinNl ((files_data.take 15).map fileSummary)
  [(str "code_context", project_context.take 8000),
   (str "current_file", str "project_overview"),
   (str "language", str "multiple"),
   (str "user_question",
    str "Analyze this project and suggest architectural improvements.")]

/-- `RealTutorAI.analyze_project`: the method body never reads or writes
`self._cache`, so the cache component passes through unchanged. -/
def analyzeProject (llm : List (Str × Str) → Except Str Str)
    (files_data : List FileData) (cache : Cache) : Str × Cache :=
  match llm (projectPayload files_data) with
  | Except.ok content => (processResponse content (str "project analysis"), cache)
  | Except.error e => (str "```\n" ++ e ++ str "\n```", cache)

/-- Concrete witness data: a first cache entry. -/
def w1p : Str × Str := ([Char.ofNat 64], [])

/-- Concrete witness data: 50 further cache entries with pairwise-distinct
keys, all distinct from `w1p`'s key. -/
def w1ps : List (Str × Str) :=
  (List.range 50).map (fun i => ([Char.ofNat (65 + i)], [Char.ofNat (65 + i)]))

/-- Concrete witness data: a model oracle that always succeeds. -/
def okLlm : List (Str × Str) → Except Str Str :=
  fun _ => Except.ok (str "great architecture")

/-- Concrete witness data: a model oracle that always fails. -/
def errLlm : List (Str × Str) → Except Str Str :=
  fun _ => Except.error (str "boom")

/-- Concrete witness data: a trivial stand-in for Python's `hash`. -/
def hZero : Str → Int := fun _ => 0

/-- Concrete witness data: one project file for `analyze_project`. -/
def demoFiles : List FileData :=
  [{ filename := some (str "a.py"), content := some (str "def f(): pass") }]

/-- C5: `_prepare_context` returns every input of length at most 8000
unchanged; every longer input becomes exactly the first 4000 characters,
the truncation marker, then the last 3000 characters; a 20000-character
input therefore has length `4000 + len(marker) + 3000`, begins with the
original first 4000 characters and ends with the original last 3000. -/
theorem prepareContext_spec :
    (∀ s : Str, s.length ≤ 8000 → prepareContext s = s) ∧
    (∀ s : Str, 8000 < s.length →
      prepareContext s = s.take 4000 ++ truncMarker ++ s.drop (s.length - 3000)) ∧
    (∀ s : Str, s.length = 20000 →
      (prepareContext s).length = 4000 + truncMarker.length + 3000 ∧
      s.take 4000 <+: prepareContext s ∧ s.drop 17000 <:+ prepareContext s) := by
  have h2 : ∀ s : Str, 8000 < s.length →
      prepareContext s = s.take 4000 ++ truncMarker ++ s.drop (s.length - 3000) := by
    intro s h
    unfold prepareContext
    rw [if_neg (by omega), if_pos (by simpa using h)]
  refine ⟨?_, h2, ?_⟩
  · intro s h
    unfold prepareContext
    split
    · rfl
    · rw [if_neg]
      simpa using h
  · intro s h
    have e := h2 s (by omega)
    rw [h] at e
    norm_num at e
    constructor
    · rw [e]
      simp only [List.length_append, List.length_take, List.length_drop, h]
      omega
    constructor
    · rw [e]
      first
      | exact List.prefix_append _ _
      | (rw [List.append_assoc]; exact List.prefix_append _ _)
    · rw [e]
      first
      | exact List.suffix_append _ _
      | (rw [← List.append_assoc]; exact List.suffix_append _ _)

/-- C5 witness: the 20000-character input `replicate 20000 'a'`. -/
theorem prepareContext_spec_witness :
    (prepareContext (List.replicate 20000 'a')).length = 4000 + truncMarker.length + 3000 ∧
    (List.replicate 20000 'a').take 4000 <+: prepareContext (List.replicate 20000 'a') ∧
    (List.replicate 20000 'a').drop 17000 <:+ prepareContext (List.replicate 20000 'a') :=
  prepareContext_spec.2.2 (List.replicate 20000 'a') (by rw [List.length_replicate])

/-- C2: evaluation of `_clean_response` at a failing input. The claim says a
trailing follow-up sentence beginning with a closer phrase is stripped
through end of text, but the source regex escapes its dollar sign (`\$`), so
it only fires when a literal `'$'` character is present: the cleaned text
here still ends with "Hope this helps!". -/
theorem clean_keeps_trailing_followup :
    clean (str "answer\nHope this helps!") = str "answer\nHope this helps!" := by decide

/-- C6: `_detect_language` applies its rules in priority order: a non-empty
(after trimming) explicit language is returned lowercased regardless of the
other arguments; otherwise a filename with an extension in the fixed table
returns the mapped label; otherwise the ordered snippet heuristics decide;
with no matching heuristic the result is "text". In particular
`detect("", "foo.rs", "") = "rust"`, `detect("Go", "foo.rs", "") = "go"`,
and `detect("", "noext", "def f():") = "python"`. -/
theorem detectLanguage_spec :
    (∀ language file_name code_snippet : Str,
      language.any (fun c => !isPySpace c) = true →
      detectLanguage language file_name code_snippet = lower language) ∧
    (∀ (language file_name code_snippet ext lbl : Str),
      language.any (fun c => !isPySpace c) = false → file_name ≠ [] →
      langMap.find? (fun kv => kv.1 == extLast (lower file_name)) = some (ext, lbl) →
      detectLanguage language file_name code_snippet = lbl) ∧
    (∀ language file_name code_snippet : Str,
      language.any (fun c => !isPySpace c) = false →
      (file_name = [] ∨
        langMap.find? (fun kv => kv.1 == extLast (lower file_name)) = none) →
      detectLanguage language file_name code_snippet = snippetHeuristics code_snippet) ∧
    (∀ code_snippet : Str,
      hasSub (str "def ") code_snippet = false →
      hasSub (str "function") code_snippet = false →
      hasSub (str "interface ") code_snippet = false →
      hasSub (str "type ") code_snippet = false →
      hasSub (str "<html") (lower code_snippet) = false →
      hasSub (str "@media") code_snippet = false →
      hasSub (str "\x7b") code_snippet = false →
      snippetHeuristics code_snippet = str "text") ∧
    detectLanguage (str "") (str "foo.rs") (str "") = str "rust" ∧
    detectLanguage (str "Go") (str "foo.rs") (str "") = str "go" ∧
    detectLanguage (str "") (str "noext") (str "def f():") = str "python" := by
  refine ⟨?_, ?_, ?_, ?_, by decide, by decide, by decide⟩
  · intro language file_name code_snippet h
    unfold detectLanguage
    rw [if_pos h]
  · intro language file_name code_snippet ext lbl h1 h2 h3
    match file_name, h2 with
    | a :: as, _ =>
      unfold detectLanguage
      rw [if_neg (by simp [h1])]
      simp only [List.isEmpty_cons, Bool.not_false, if_true, h3, Option.map_some']
  · intro language file_name code_snippet h1 h2
    unfold detectLanguage
    rw [if_neg (by simp [h1])]
    rcases h2 with h2 | h2
    · subst h2
      rfl
    · rcases file_name with _ | ⟨a, as⟩
      · rfl
      · simp only [List.isEmpty_cons, Bool.not_false, if_true, h2, Option.map_none']
  · intro code_snippet d1 d2 d3 d4 d5 d6 d7
    unfold snippetHeuristics
    rw [if_neg (by simp [d1]), if_neg (by simp [d2]), if_neg (by simp [d3, d4]),
      if_neg (by simp [d5]), if_neg (by simp [d6, d7])]

/-- C6 witness: the explicit-language rule at `detect("Go", "foo.rs", "")`. -/
theorem detectLanguage_spec_witness :
    detectLanguage (str "Go") (str "foo.rs") (str "") = lower (str "Go") :=
  detectLanguage_spec.1 (str "Go") (str "foo.rs") (str "") (by decide)

/-- C7 counterexample: the input "Sure();\nx" contains no code fence and
contains code-like tokens (";" and "()"), yet `_process_code_response`
returns the bare "x" with no fence at all: the tokens sit in the preamble
line that `_clean_response` strips before the wrap decision is made. -/
theorem processCodeResponse_no_wrap_counterexample :
    hasSub fence (str "Sure();\nx") = false ∧
    hasSub (str ";") (str "Sure();\nx") = true ∧
    hasSub (str "()") (str "Sure();\nx") = true ∧
    processCodeResponse (str "Sure();\nx") (str "python") = str "x" ∧
    hasSub fence (str "x") = false := by decide

/-- C7 (amended): if the CLEANED text contains no code fence and contains at
least one code-like token, `_process_code_response` returns the cleaned text
wrapped in a single fenced block tagged with the given language. -/
theorem processCodeResponse_wraps_cleaned :
    ∀ t language : Str, hasSub fence (clean t) = false →
      codeTokens.any (fun tok => hasSub tok (clean t)) = true →
      processCodeResponse t language =
        fence ++ language ++ str "\n" ++ clean t ++ str "\n" ++ fence := by
  intro t language h1 h2
  simp [processCodeResponse, h1, h2]

/-- C7 witness: the completion "def foo():\n  return 1" with language
"python" is returned wrapped in a single fence tagged `python`. -/
theorem processCodeResponse_wraps_cleaned_witness :
    processCodeResponse (str "def foo():\n  return 1") (str "python") =
      fence ++ str "python" ++ str "\n" ++ clean (str "def foo():\n  return 1")
        ++ str "\n" ++ fence :=
  processCodeResponse_wraps_cleaned (str "def foo():\n  return 1") (str "python")
    (by decide) (by decide)

theorem updateCache_le (key value : Str) (c : Cache) (h : c.length ≤ 50) :
    (updateCache key value c).length ≤ 50 := by
  have keylem : ∀ l : Cache, l.length ≤ 51 →
      (if decide (50 < l.length) = true then l.drop 1 else l).length ≤ 50 := by
    intro l hl
    split
    · rw [List.length_drop]
      omega
    · rename_i hle
      simp only [decide_eq_true_eq, not_lt] at hle
      omega
  simp only [updateCache, cacheLimit]
  apply keylem
  split
  · simp only [List.length_map]
    omega
  · simp only [List.length_append, List.length_singleton]
    omega

theorem putList_le (ps : List (Str × Str)) (c : Cache) (h : c.length ≤ 50) :
    (putList ps c).length ≤ 50 := by
  induction ps generalizing c with
  | nil => exact h
  | cons p ps ih =>
    rw [putList, List.foldl_cons]
    exact ih _ (updateCache_le p.1 p.2 c h)

theorem any_key_eq_false_of_not_mem (c : Cache) (k : Str)
    (h : k ∉ c.map Prod.fst) : c.any (fun kv => kv.1 == k) = false := by
  rw [Bool.eq_false_iff]
  intro hc
  rcases List.any_eq_true.mp hc with ⟨kv, hkv, hbeq⟩
  exact h (beq_iff_eq.mp hbeq ▸ List.mem_map_of_mem Prod.fst hkv)

theorem find?_key_none (key : Str) (c : Cache)
    (h : key ∉ c.map Prod.fst) : c.find? (fun kv => kv.1 == key) = none := by
  apply List.find?_eq_none.mpr
  intro kv hkv
  simp only [beq_iff_eq]
  intro he
  exact h (he ▸ List.mem_map_of_mem Prod.fst hkv)

theorem cacheGet_eq_none (key : Str) (c : Cache)
    (h : key ∉ c.map Prod.fst) : cacheGet key c = none := by
  unfold cacheGet
  rw [find?_key_none key c h]
  rfl

theorem cacheGet_of_mem (c : Cache) (q : Str × Str)
    (hnd : (c.map Prod.fst).Nodup) (hm : q ∈ c) : cacheGet q.1 c = some q.2 := by
  induction c with
  | nil => cases hm
  | cons kv tl ih =>
    rw [List.map_cons, List.nodup_cons] at hnd
    by_cases hk : kv.1 = q.1
    · have hq : kv = q := by
        rcases List.mem_cons.mp hm with h | h
        · exact h.symm
        · exact absurd (hk ▸ List.mem_map_of_mem Prod.fst h) hnd.1
      unfold cacheGet
      rw [List.find?_cons_of_pos _ (by simp [hk]), hq]
      rfl
    · have hq : q ∈ tl := by
        rcases List.mem_cons.mp hm with h | h
        · exact absurd (congrArg Prod.fst h.symm) hk
        · exact h
      unfold cacheGet
      rw [List.find?_cons_of_neg _ (by simp [hk])]
      exact ih hnd.2 hq

theorem updateCache_fresh (p : Str × Str) (c : Cache)
    (h : p.1 ∉ c.map Prod.fst) :
    updateCache p.1 p.2 c =
      if 50 < c.length + 1 then (c ++ [p]).drop 1 else c ++ [p] := by
  simp only [updateCache, cacheLimit, any_key_eq_false_of_not_mem c p.1 h,
    Bool.false_eq_true, if_false, List.length_append, List.length_singleton,
    List.length_nil, List.length_cons, decide_eq_true_eq, Prod.mk.eta]

theorem putList_fresh_drop (ps : List (Str × Str)) (c : Cache)
    (hnd : ((c ++ ps).map Prod.fst).Nodup) (hc : c.length ≤ 50) :
    putList ps c = (c ++ ps).drop (c.length + ps.length - 50) := by
  induction ps generalizing c with
  | nil =>
    simp only [putList, List.foldl_nil, List.append_nil, List.length_nil]
    rw [show c.length + 0 - 50 = 0 from by omega, List.drop_zero]
  | cons p ps ih =>
    have hsplit : (c ++ p :: ps).map Prod.fst
        = c.map Prod.fst ++ p.1 :: ps.map Prod.fst := by simp
    have hfresh : p.1 ∉ c.map Prod.fst := by
      rw [hsplit] at hnd
      have hdisj := (List.nodup_append.mp hnd).2.2
      intro hmem
      exact hdisj hmem (List.mem_cons_self _ _)
    rw [putList, List.foldl_cons, ← putList, updateCache_fresh p c hfresh]
    by_cases h50 : c.length = 50
    · rcases c with _ | ⟨hd, tl⟩
      · simp at h50
      · have htl : tl.length = 49 := by simpa using h50
        have hndtail : ((tl ++ p :: ps).map Prod.fst).Nodup := by
          rw [show ((hd :: tl) ++ p :: ps) = hd :: (tl ++ p :: ps) from rfl,
            List.map_cons, List.nodup_cons] at hnd
          exact hnd.2
        have e1 : (tl ++ [p]) ++ ps = tl ++ p :: ps := by simp
        rw [if_pos (by simp only [List.length_cons, htl]; omega)]
        have hstep : ((hd :: tl) ++ [p]).drop 1 = tl ++ [p] := rfl
        rw [hstep, ih (tl ++ [p]) (by rw [e1]; exact hndtail)
          (by simp only [List.length_append, List.length_singleton, htl]; omega)]
        have e2 : (tl ++ [p]).length + ps.length - 50 = ps.length := by
          simp only [List.length_append, List.length_singleton, htl]
          omega
        have e3 : (hd :: tl).length + (p :: ps).length - 50 = ps.length + 1 := by
          simp only [List.length_cons, htl]
          omega
        rw [e1, e2, e3, show (hd :: tl) ++ p :: ps = hd :: (tl ++ p :: ps) from rfl,
          List.drop_succ_cons]
    · have e1 : (c ++ [p]) ++ ps = c ++ p :: ps := by simp
      rw [if_neg (by omega),
        ih (c ++ [p]) (by rw [e1]; exact hnd)
          (by simp only [List.length_append, List.length_singleton]; omega),
        e1]
      congr 1
      simp only [List.length_append, List.length_singleton, List.length_nil,
        List.length_cons]
      omega

/-- C4: the cache size invariant. A single `_update_cache` on a cache of at
most 50 entries leaves at most 50 entries, and hence any sequence of put
operations starting from the empty cache leaves at most 50 entries. -/
theorem cache_size_invariant :
    (∀ (key value : Str) (c : Cache), c.length ≤ 50 →
      (updateCache key value c).length ≤ 50) ∧
    (∀ ps : List (Str × Str), (putList ps []).length ≤ 50) :=
  ⟨updateCache_le, fun ps => putList_le ps [] (by simp)⟩

/-- C4 witness: one put into the empty cache. -/
theorem cache_size_invariant_witness :
    (updateCache (str "k") (str "v") []).length ≤ 50 :=
  cache_size_invariant.1 (str "k") (str "v") [] (by decide)

/-- C1: starting from the empty cache, putting 51 pairwise-distinct keys in
sequence leaves exactly the 50 most-recently-inserted entries: the final
cache equals the last 50 pairs, each of those keys is retrievable with its
value, and the first-inserted key (and only it) has been evicted. -/
theorem cache_fifo_51 :
    ∀ (p : Str × Str) (ps : List (Str × Str)),
      ((p :: ps).map Prod.fst).Nodup → (p :: ps).length = 51 →
      putList (p :: ps) [] = ps ∧
      cacheGet p.1 (putList (p :: ps) []) = none ∧
      (∀ q ∈ ps, cacheGet q.1 (putList (p :: ps) []) = some q.2) := by
  intro p ps hnd hlen
  have hnd' : ((p :: ps).map Prod.fst).Nodup := hnd
  rw [List.map_cons, List.nodup_cons] at hnd'
  have hfinal : putList (p :: ps) [] = ps := by
    rw [putList_fresh_drop (p :: ps) [] (by simpa using hnd) (by simp)]
    simp only [List.nil_append, List.length_nil, Nat.zero_add, hlen]
    rfl
  refine ⟨hfinal, ?_, ?_⟩
  · rw [hfinal]
    exact cacheGet_eq_none p.1 ps hnd'.1
  · intro q hq
    rw [hfinal]
    exact cacheGet_of_mem ps q hnd'.2 hq

/-- C1 witness: 51 concrete pairwise-distinct keys; the first one is no
longer retrievable afterwards. -/
theorem cache_fifo_51_witness :
    cacheGet w1p.1 (putList (w1p :: w1ps) []) = none :=
  (cache_fifo_51 w1p w1ps (by decide) (by decide)).2.1

theorem find_map_update (key value : Str) (c : Cache)
    (h : c.any (fun kv => kv.1 == key) = true) :
    (c.map (fun kv => if kv.1 == key then (key, value) else kv)).find?
      (fun kv => kv.1 == key) = some (key, value) := by
  induction c with
  | nil => cases h
  | cons kv tl ih =>
    by_cases hk : kv.1 = key
    · simp only [List.map_cons, hk, beq_self_eq_true, if_true]
      rw [List.find?_cons_of_pos _ (by simp)]
    · have hkb : ¬((kv.1 == key) = true) := by simp [hk]
      have hh : tl.any (fun kv => kv.1 == key) = true := by
        rw [List.any_cons] at h
        simpa [hk] using h
      simp only [List.map_cons, if_neg hkb]
      rw [List.find?_cons_of_neg _ (by simp [hk])]
      exact ih hh

theorem cacheGet_updateCache_self (key value : Str) (c : Cache)
    (h : c.length ≤ 50) :
    cacheGet key (updateCache key value c) = some value := by
  by_cases hany : c.any (fun kv => kv.1 == key) = true
  · have hsel : updateCache key value c
        = c.map (fun kv => if kv.1 == key then (key, value) else kv) := by
      unfold updateCache cacheLimit
      rw [if_pos hany, if_neg]
      simp only [decide_eq_true_eq, not_lt, List.length_map]
      exact h
    rw [hsel]
    unfold cacheGet
    rw [find_map_update key value c hany]
    rfl
  · have hnotmem : key ∉ c.map Prod.fst := by
      intro hmem
      rcases List.mem_map.mp hmem with ⟨kv, hkv, he⟩
      exact hany (List.any_eq_true.mpr ⟨kv, hkv, by simp [he]⟩)
    have hupd : updateCache key value c
        = if 50 < c.length + 1 then (c ++ [(key, value)]).drop 1
          else c ++ [(key, value)] :=
      updateCache_fresh (key, value) c hnotmem
    rw [hupd]
    by_cases hlen : c.length = 50
    · rw [if_pos (by omega)]
      rcases c with _ | ⟨hd, tl⟩
      · simp at hlen
      · have hstep : ((hd :: tl) ++ [(key, value)]).drop 1 = tl ++ [(key, value)] := rfl
        have htlnone : tl.find? (fun kv => kv.1 == key) = none := by
          apply find?_key_none
          intro hmem
          exact hnotmem (by simp [hmem])
        rw [hstep]
        unfold cacheGet
        rw [List.find?_append, htlnone]
        simp
    · rw [if_neg (by omega)]
      unfold cacheGet
      rw [List.find?_append, find?_key_none key c hnotmem]
      simp

/-- C3 counterexample: `analyze_project` performs no cache interaction at
all. With an oracle that succeeds, a one-file project and the empty cache,
the call returns a successfully processed result, yet the cache afterwards
is still empty: nothing was stored (and nothing could have been read). -/
theorem analyzeProject_no_cache_counterexample :
    okLlm (projectPayload demoFiles) = Except.ok (str "great architecture") ∧
    analyzeProject okLlm demoFiles [] = (str "great architecture", []) := by
  constructor
  · rfl
  · decide

/-- C3 (amended): `explain_error`, `suggest_on_inactivity` and
`answer_question` each check the response cache first and return the cached
value immediately on a hit (cache unchanged), and after a successful model
call store the processed result under their key before returning it (so the
result is then retrievable, given the reachable-state bound of 50 entries);
`analyze_project` performs no cache read or write: its cache is returned
unchanged whatever the oracle does. -/
theorem dispatcher_cache_policy :
    (∀ (h : Str → Int) (llm : List (Str × Str) → Except Str Str)
        (cc em lang fn : Str) (cache : Cache) (v : Str),
      cacheGet (errorKey h cc em lang) cache = some v →
      explainError h llm cc em lang fn cache = (v, cache)) ∧
    (∀ (h : Str → Int) (llm : List (Str × Str) → Except Str Str)
        (cc em lang fn : Str) (cache : Cache) (content : Str),
      cacheGet (errorKey h cc em lang) cache = none →
      llm (errorPayload cc em lang fn) = Except.ok content →
      cache.length ≤ 50 →
      explainError h llm cc em lang fn cache
        = (processCodeResponse content lang,
           updateCache (errorKey h cc em lang) (processCodeResponse content lang) cache) ∧
      cacheGet (errorKey h cc em lang) (explainError h llm cc em lang fn cache).2
        = some (processCodeResponse content lang)) ∧
    (∀ (h : Str → Int) (llm : List (Str × Str) → Except Str Str)
        (cc cf re lang : Str) (cache : Cache) (v : Str),
      cacheGet (improveKey h cc lang) cache = some v →
      suggestOnInactivity h llm cc cf re lang cache = (v, cache)) ∧
    (∀ (h : Str → Int) (llm : List (Str × Str) → Except Str Str)
        (cc cf re lang : Str) (cache : Cache) (content : Str),
      cacheGet (improveKey h cc lang) cache = none →
      llm (improvePayload cc cf lang) = Except.ok content →
      cache.length ≤ 50 →
      suggestOnInactivity h llm cc cf re lang cache
        = (processCodeResponse content (detectLanguage lang cf cc),
           updateCache (improveKey h cc lang)
             (processCodeResponse content (detectLanguage lang cf cc)) cache) ∧
      cacheGet (improveKey h cc lang) (suggestOnInactivity h llm cc cf re lang cache).2
        = some (processCodeResponse content (detectLanguage lang cf cc))) ∧
    (∀ (h : Str → Int) (llm : List (Str × Str) → Except Str Str)
        (cc cf uq lang : Str) (cache : Cache) (v : Str),
      cacheGet (questionKey h cc uq lang) cache = some v →
      answerQuestion h llm cc cf uq lang cache = (v, cache)) ∧
    (∀ (h : Str → Int) (llm : List (Str × Str) → Except Str Str)
        (cc cf uq lang : Str) (cache : Cache) (content : Str),
      cacheGet (questionKey h cc uq lang) cache = none →
      llm (questionPayload cc cf uq lang) = Except.ok content →
      cache.length ≤ 50 →
      answerQuestion h llm cc cf uq lang cache
        = (processResponse content uq,
           updateCache (questionKey h cc uq lang) (processResponse content uq) cache) ∧
      cacheGet (questionKey h cc uq lang) (answerQuestion h llm cc cf uq lang cache).2
        = some (processResponse content uq)) ∧
    (∀ (llm : List (Str × Str) → Except Str Str)
        (files : List FileData) (cache : Cache),
      (analyzeProject llm files cache).2 = cache) := by
  refine ⟨?_, ?_, ?_, ?_, ?_, ?_, ?_⟩
  · intro h llm cc em lang fn cache v hv
    simp only [explainError]
    rw [hv]
  · intro h llm cc em lang fn cache content hnone hok hlen
    have he : explainError h llm cc em lang fn cache
        = (processCodeResponse content lang,
           updateCache (errorKey h cc em lang) (processCodeResponse content lang) cache) := by
      simp only [explainError]
      rw [hnone, hok]
    refine ⟨he, ?_⟩
    rw [he]
    exact cacheGet_updateCache_self _ _ cache hlen
  · intro h llm cc cf re lang cache v hv
    simp only [suggestOnInactivity]
    rw [hv]
  · intro h llm cc cf re lang cache content hnone hok hlen
    have he : suggestOnInactivity h llm cc cf re lang cache
        = (processCodeResponse content (detectLanguage lang cf cc),
           updateCache (improveKey h cc lang)
             (processCodeResponse content (detectLanguage lang cf cc)) cache) := by
      simp only [suggestOnInactivity]
      rw [hnone, hok]
    refine ⟨he, ?_⟩
    rw [he]
    exact cacheGet_updateCache_self _ _ cache hlen
  · intro h llm cc cf uq lang cache v hv
    simp only [answerQuestion]
    rw [hv]
  · intro h llm cc cf uq lang cache content hnone hok hlen
    have he : answerQuestion h llm cc cf uq lang cache
        = (processResponse content uq,
           updateCache (questionKey h cc uq lang) (processResponse content uq) cache) := by
      simp only [answerQuestion]
      rw [hnone, hok]
    refine ⟨he, ?_⟩
    rw [he]
    exact cacheGet_updateCache_self _ _ cache hlen
  · intro llm files cache
    unfold analyzeProject
    rcases llm (projectPayload files) with e | content
    · rfl
    · rfl

/-- C3 witness: a concrete cache hit for `explain_error`. -/
theorem dispatcher_cache_policy_witness :
    explainError hZero okLlm (str "c") (str "e") (str "l") (str "f")
        [(errorKey hZero (str "c") (str "e") (str "l"), str "v")]
      = (str "v", [(errorKey hZero (str "c") (str "e") (str "l"), str "v")]) :=
  dispatcher_cache_policy.1 hZero okLlm (str "c") (str "e") (str "l") (str "f")
    [(errorKey hZero (str "c") (str "e") (str "l"), str "v")] (str "v") (by decide)

theorem explainError_err (h : Str → Int) (llm : List (Str × Str) → Except Str Str)
    (cc em lang fn : Str) (cache : Cache) (e : Str)
    (hnone : cacheGet (errorKey h cc em lang) cache = none)
    (herr : llm (errorPayload cc em lang fn) = Except.error e) :
    explainError h llm cc em lang fn cache = (str "```\n" ++ e ++ str "\n```", cache) := by
  simp only [explainError]
  rw [hnone, herr]

theorem suggestOnInactivity_err (h : Str → Int)
    (llm : List (Str × Str) → Except Str Str)
    (cc cf re lang : Str) (cache : Cache) (e : Str)
    (hnone : cacheGet (improveKey h cc lang) cache = none)
    (herr : llm (improvePayload cc cf lang) = Except.error e) :
    suggestOnInactivity h llm cc cf re lang cache
      = (str "```\n" ++ e ++ str "\n```", cache) := by
  simp only [suggestOnInactivity]
  rw [hnone, herr]

theorem answerQuestion_err (h : Str → Int) (llm : List (Str × Str) → Except Str Str)
    (cc cf uq lang : Str) (cache : Cache) (e : Str)
    (hnone : cacheGet (questionKey h cc uq lang) cache = none)
    (herr : llm (questionPayload cc cf uq lang) = Except.error e) :
    answerQuestion h llm cc cf uq lang cache
      = (str "```\n" ++ e ++ str "\n```", cache) := by
  simp only [answerQuestion]
  rw [hnone, herr]

theorem analyzeProject_err (llm : List (Str × Str) → Except Str Str)
    (files : List FileData) (cache : Cache) (e : Str)
    (herr : llm (projectPayload files) = Except.error e) :
    analyzeProject llm files cache = (str "```\n" ++ e ++ str "\n```", cache) := by
  unfold analyzeProject
  rw [herr]

/-- C8: for each of the four operations, when the model call fails with
error description `e` (and, for the three caching operations, the cache
missed so the call is actually made), the operation returns the fenced
string "```\n" + e + "\n```" together with an unchanged cache: the
exception is converted, never propagated. -/
theorem dispatcher_error_fenced :
    (∀ (h : Str → Int) (llm : List (Str × Str) → Except Str Str)
        (cc em lang fn : Str) (cache : Cache) (e : Str),
      cacheGet (errorKey h cc em lang) cache = none →
      llm (errorPayload cc em lang fn) = Except.error e →
      explainError h llm cc em lang fn cache
        = (str "```\n" ++ e ++ str "\n```", cache)) ∧
    (∀ (h : Str → Int) (llm : List (Str × Str) → Except Str Str)
        (cc cf re lang : Str) (cache : Cache) (e : Str),
      cacheGet (improveKey h cc lang) cache = none →
      llm (improvePayload cc cf lang) = Except.error e →
      suggestOnInactivity h llm cc cf re lang cache
        = (str "```\n" ++ e ++ str "\n```", cache)) ∧
    (∀ (h : Str → Int) (llm : List (Str × Str) → Except Str Str)
        (cc cf uq lang : Str) (cache : Cache) (e : Str),
      cacheGet (questionKey h cc uq lang) cache = none →
      llm (questionPayload cc cf uq lang) = Except.error e →
      answerQuestion h llm cc cf uq lang cache
        = (str "```\n" ++ e ++ str "\n```", cache)) ∧
    (∀ (llm : List (Str × Str) → Except Str Str)
        (files : List FileData) (cache : Cache) (e : Str),
      llm (projectPayload files) = Except.error e →
      analyzeProject llm files cache = (str "```\n" ++ e ++ str "\n```", cache)) :=
  ⟨explainError_err, suggestOnInactivity_err, answerQuestion_err, analyzeProject_err⟩

/-- C8 witness: a concrete failing call to `explain_error`. -/
theorem dispatcher_error_fenced_witness :
    explainError hZero errLlm (str "c") (str "e") (str "l") (str "f") []
      = (str "```\n" ++ str "boom" ++ str "\n```", []) :=
  dispatcher_error_fenced.1 hZero errLlm (str "c") (str "e") (str "l") (str "f")
    [] (str "boom") (by decide) rfl

/-- C10: for `explain_error`, `suggest_on_inactivity` and `answer_question`,
when the model call fails the cache is returned exactly as it was before the
operation: the fenced error response is never inserted and no eviction
happens on the failure path. -/
theorem dispatcher_error_cache_unchanged :
    (∀ (h : Str → Int) (llm : List (Str × Str) → Except Str Str)
        (cc em lang fn : Str) (cache : Cache) (e : Str),
      cacheGet (errorKey h cc em lang) cache = none →
      llm (errorPayload cc em lang fn) = Except.error e →
      (explainError h llm cc em lang fn cache).2 = cache) ∧
    (∀ (h : Str → Int) (llm : List (Str × Str) → Except Str Str)
        (cc cf re lang : Str) (cache : Cache) (e : Str),
      cacheGet (improveKey h cc lang) cache = none →
      llm (improvePayload cc cf lang) = Except.error e →
      (suggestOnInactivity h llm cc cf re lang cache).2 = cache) ∧
    (∀ (h : Str → Int) (llm : List (Str × Str) → Except Str Str)
        (cc cf uq lang : Str) (cache : Cache) (e : Str),
      cacheGet (questionKey h cc uq lang) cache = none →
      llm (questionPayload cc cf uq lang) = Except.error e →
      (answerQuestion h llm cc cf uq lang cache).2 = cache) := by
  refine ⟨?_, ?_, ?_⟩
  · intro h llm cc em lang fn cache e hnone herr
    rw [explainError_err h llm cc em lang fn cache e hnone herr]
  · intro h llm cc cf re lang cache e hnone herr
    rw [suggestOnInactivity_err h llm cc cf re lang cache e hnone herr]
  · intro h llm cc cf uq lang cache e hnone herr
    rw [answerQuestion_err h llm cc cf uq lang cache e hnone herr]

/-- C10 witness: a concrete failing call to `answer_question` with a
non-empty cache that survives untouched. -/
theorem dispatcher_error_cache_unchanged_witness :
    (answerQuestion hZero errLlm (str "c") (str "f") (str "q") (str "l")
      [(str "other", str "w")]).2 = [(str "other", str "w")] :=
  dispatcher_error_cache_unchanged.2.2 hZero errLlm (str "c") (str "f") (str "q")
    (str "l") [(str "other", str "w")] (str "boom") (by decide) rfl

theorem openers_chars_no_nl : ∀ o ∈ openers, ∀ a ∈ o, a.toLower ≠ '\n' := by decide

theorem openers_no_nl : ∀ o ∈ openers, ∀ a ∈ o, a ≠ '\n' := by decide

theorem closers_no_dollar : ∀ cl ∈ closers, ∀ a ∈ cl, a ≠ '$' := by decide

theorem closers_ne_nil : ∀ cl ∈ closers, cl ≠ [] := by decide

theorem closers_last_not_space :
    ∀ cl ∈ closers, cl.getLast?.all (fun a => !isPySpace a) = true := by decide

theorem ciPrefix_append_self : ∀ (o t : Str), ciPrefix o (o ++ t) = true := by
  intro o
  induction o with
  | nil => intro t; rfl
  | cons x xs ih =>
    intro t
    simp only [List.cons_append, ciPrefix, Bool.and_eq_true, beq_self_eq_true,
      true_and]
    exact ih t

theorem ciPrefix_drop : ∀ (s o t : Str), ciPrefix o (s ++ t) = true →
    s.length < o.length → ciPrefix (o.drop s.length) t = true := by
  intro s
  induction s with
  | nil =>
    intro o t h _
    simpa using h
  | cons x xs ih =>
    intro o t h hlen
    cases o with
    | nil => simp at hlen
    | cons y ys =>
      simp only [List.cons_append, ciPrefix, Bool.and_eq_true] at h
      have := ih ys t h.2 (by simpa using hlen)
      simpa [List.drop_succ_cons] using this

theorem ciPrefix_of_append_le : ∀ (o core post : Str),
    ciPrefix o (core ++ post) = true → o.length ≤ core.length →
    ciPrefix o core = true := by
  intro o
  induction o with
  | nil => intro core post _ _; rfl
  | cons y ys ih =>
    intro core post h hlen
    cases core with
    | nil => simp at hlen
    | cons x xs =>
      simp only [List.cons_append, ciPrefix, Bool.and_eq_true] at h ⊢
      exact ⟨h.1, ih xs post h.2 (by simpa using hlen)⟩

theorem ciPrefix_head_nl (o rest : Str) (ho : o ≠ [])
    (h : ciPrefix o ('\n' :: rest) = true) : ∃ a ∈ o, a.toLower = '\n' := by
  cases o with
  | nil => exact absurd rfl ho
  | cons y ys =>
    simp only [ciPrefix, Bool.and_eq_true, beq_iff_eq] at h
    exact ⟨y, List.mem_cons_self _ _, h.1.trans (by decide)⟩

theorem ciPrefix_append_bridge (o core post : Str)
    (hnl : ∀ a ∈ o, a.toLower ≠ '\n')
    (hf : ciPrefix o core = false)
    (hpost : post = [] ∨ ∃ rest, post = '\n' :: rest) :
    ciPrefix o (core ++ post) = false := by
  by_contra hcp
  rw [Bool.not_eq_false] at hcp
  by_cases hlen : o.length ≤ core.length
  · rw [ciPrefix_of_append_le o core post hcp hlen] at hf
    cases hf
  · push_neg at hlen
    rcases hpost with hp | ⟨rest, hp⟩
    · subst hp
      rw [List.append_nil] at hcp
      rw [hcp] at hf
      cases hf
    · subst hp
      have hd := ciPrefix_drop core o ('\n' :: rest) hcp hlen
      have hne : o.drop core.length ≠ [] := by
        intro he
        have h1 : (o.drop core.length).length = o.length - core.length :=
          List.length_drop _ _
        rw [he] at h1
        simp at h1
        omega
      rcases ciPrefix_head_nl _ _ hne hd with ⟨a, ha, hanl⟩
      exact hnl a (List.mem_of_mem_drop ha) hanl

theorem findIdx?_first (p : Char → Bool) :
    ∀ (u : Str) (b : Char) (z : Str), (∀ a ∈ u, p a = false) → p b = true →
      (u ++ b :: z).findIdx? p = some u.length := by
  intro u
  induction u with
  | nil =>
    intro b z _ hb
    simp [List.findIdx?_cons, hb]
  | cons a u' ih =>
    intro b z hu hb
    rw [List.cons_append, List.findIdx?_cons,
      if_neg (by simp [hu a (List.mem_cons_self _ _)]), List.findIdx?_succ,
      ih b z (fun a ha => hu a (List.mem_cons_of_mem _ ha)) hb]
    rfl

theorem findIdx?_none_of_all (p : Char → Bool) :
    ∀ (l : Str), (∀ a ∈ l, p a = false) → l.findIdx? p = none := by
  intro l
  induction l with
  | nil => intro _; rfl
  | cons a l' ih =>
    intro h
    rw [List.findIdx?_cons, if_neg (by simp [h a (List.mem_cons_self _ _)]),
      List.findIdx?_succ, ih (fun a ha => h a (List.mem_cons_of_mem _ ha))]
    rfl

theorem findFrom_none (p : Char → Bool) (s : Str) (i : Nat)
    (h : ∀ a ∈ s, p a = false) : findFrom p s i = none := by
  unfold findFrom
  rw [findIdx?_none_of_all p _ (fun a ha => h a (List.mem_of_mem_drop ha))]
  rfl

theorem findFrom_first (p : Char → Bool) (u : Str) (b : Char) (z : Str)
    (hu : ∀ a ∈ u, p a = false) (hb : p b = true) (i : Nat) (hi : i ≤ u.length) :
    findFrom p (u ++ b :: z) i = some u.length := by
  unfold findFrom
  rw [List.drop_append_of_le_length hi,
    findIdx?_first p (u.drop i) b z (fun a ha => hu a (List.mem_of_mem_drop ha)) hb]
  simp only [Option.map_some', List.length_drop]
  congr 1
  omega

theorem dropWhile_noop (p : Char → Bool) (s : Str)
    (h : ∀ a, s.head? = some a → p a = false) : s.dropWhile p = s := by
  cases s with
  | nil => rfl
  | cons c cs =>
    rw [List.dropWhile_cons, if_neg (show ¬(p c = true) by simp [h c rfl])]

theorem pyStrip_noop (s : Str)
    (hh : ∀ a, s.head? = some a → isPySpace a = false)
    (hl : ∀ a, s.getLast? = some a → isPySpace a = false) : pyStrip s = s := by
  unfold pyStrip
  rw [dropWhile_noop _ s hh, dropWhile_noop _ s.reverse
    (fun a ha => hl a (by rwa [List.head?_reverse] at ha)), List.reverse_reverse]

theorem stripClosersF_noop : ∀ (fuel : Nat) (s : Str), (∀ a ∈ s, a ≠ '$') →
    stripClosersF fuel s = s := by
  intro fuel
  induction fuel with
  | zero =>
    intro s _
    cases s <;> rfl
  | succ fuel ih =>
    intro s hs
    cases s with
    | nil => rfl
    | cons c cs =>
      have hcs : ∀ a ∈ cs, a ≠ '$' := fun a ha => hs a (List.mem_cons_of_mem _ ha)
      have hfind : closers.find?
          (fun p => ciPrefix p cs
            && (findFrom (fun ch => ch == '$') cs p.length).isSome) = none := by
        apply List.find?_eq_none.mpr
        intro p _
        rw [findFrom_none _ cs p.length (by intro a ha; simp [hcs a ha])]
        simp
      by_cases hc : (c == '\n') = true
      · simp only [stripClosersF, if_pos hc, hfind]
        rw [ih cs hcs]
      · simp only [stripClosersF, if_neg hc]
        rw [ih cs hcs]

theorem stripClosers_noop (s : Str) (h : ∀ a ∈ s, a ≠ '$') :
    stripClosers s = s := stripClosersF_noop s.length s h

theorem stripPreamble_nomatch (s : Str)
    (h : ∀ o ∈ openers, ciPrefix o s = false) : stripPreamble s = s := by
  have hfind : openers.find?
      (fun o => ciPrefix o s
        && (findFrom (fun c => c == '\n') s o.length).isSome) = none := by
    apply List.find?_eq_none.mpr
    intro o ho
    simp [h o ho]
  unfold stripPreamble
  rw [hfind]

theorem stripPreamble_exact (o r z : Str) (ho : o ∈ openers)
    (hr : ∀ a ∈ r, a ≠ '\n') :
    stripPreamble ((o ++ r) ++ '\n' :: z) = z := by
  have horb : ∀ a ∈ o ++ r, (a == '\n') = false := by
    intro a ha
    rcases List.mem_append.mp ha with h | h
    · simpa using openers_no_nl o ho a h
    · simpa using hr a h
  have hff : ∀ i ≤ (o ++ r).length,
      findFrom (fun c => c == '\n') ((o ++ r) ++ '\n' :: z) i
        = some (o ++ r).length :=
    fun i hi => findFrom_first _ (o ++ r) '\n' z horb (by simp) i hi
  have hpred : (ciPrefix o ((o ++ r) ++ '\n' :: z)
      && (findFrom (fun c => c == '\n') ((o ++ r) ++ '\n' :: z) o.length).isSome)
      = true := by
    rw [hff o.length (by rw [List.length_append]; omega), List.append_assoc]
    simp [ciPrefix_append_self]
  cases hfo : openers.find?
      (fun p => ciPrefix p ((o ++ r) ++ '\n' :: z)
        && (findFrom (fun c => c == '\n') ((o ++ r) ++ '\n' :: z) p.length).isSome) with
  | none =>
    exfalso
    have hno := List.find?_eq_none.mp hfo o ho
    rw [hpred] at hno
    exact hno rfl
  | some o2 =>
    have ho2mem : o2 ∈ openers := List.mem_of_find?_eq_some hfo
    have hpred2 := List.find?_some hfo
    simp only [Bool.and_eq_true] at hpred2
    have hlen2 : o2.length ≤ (o ++ r).length := by
      by_contra hgt
      push_neg at hgt
      have hd := ciPrefix_drop (o ++ r) o2 ('\n' :: z) hpred2.1 hgt
      have hne : o2.drop (o ++ r).length ≠ [] := by
        intro he
        have h1 : (o2.drop (o ++ r).length).length = o2.length - (o ++ r).length :=
          List.length_drop _ _
        rw [he] at h1
        simp only [List.length_nil] at h1
        omega
      rcases ciPrefix_head_nl _ _ hne hd with ⟨a, ha, hanl⟩
      exact openers_chars_no_nl o2 ho2mem a (List.mem_of_mem_drop ha) hanl
    simp only [stripPreamble, hfo, hff o2.length hlen2]
    rw [List.drop_append 1]
    rfl

theorem optAll_imp (p : Char → Bool) :
    ∀ (oa : Option Char), oa.all p = true → ∀ a, oa = some a → p a = true := by
  intro oa h a ha
  subst ha
  simpa using h

theorem hasSub_false_firstSubIdx (pat s : Str) (h : hasSub pat s = false) :
    firstSubIdx pat s = none := by
  unfold hasSub at h
  cases hidx : firstSubIdx pat s with
  | none => rfl
  | some i =>
    rw [hidx] at h
    cases h

theorem clean_noop_family (core post : Str)
    (hcore : core ≠ [])
    (hh : ∀ a, core.head? = some a → isPySpace a = false)
    (hop : ∀ o' ∈ openers, ciPrefix o' core = false)
    (hdol : ∀ a ∈ core ++ post, a ≠ '$')
    (hpost : post = [] ∨ ∃ rest, post = '\n' :: rest)
    (hlast : ∀ a, (core ++ post).getLast? = some a → isPySpace a = false)
    (hfence : hasSub fence (core ++ post) = false) :
    clean (core ++ post) = core ++ post := by
  have hfs : firstSubIdx fence (core ++ post) = none :=
    hasSub_false_firstSubIdx _ _ hfence
  have hpre : stripPreamble (core ++ post) = core ++ post :=
    stripPreamble_nomatch _ (fun o' ho' =>
      ciPrefix_append_bridge o' core post (openers_chars_no_nl o' ho')
        (hop o' ho') hpost)
  have hh2 : ∀ a, (core ++ post).head? = some a → isPySpace a = false := by
    intro a ha
    rw [List.head?_append_of_ne_nil core hcore] at ha
    exact hh a ha
  simp only [clean, hpre, stripClosers_noop (core ++ post) hdol, hfs]
  exact pyStrip_noop _ hh2 hlast

theorem clean_idem_aux (pre core post : Str)
    (hpre_cases : pre = []
      ∨ ∃ o r, o ∈ openers ∧ (∀ a ∈ r, a ≠ '\n') ∧ pre = (o ++ r) ++ ['\n'])
    (hcore : core ≠ [])
    (hh : ∀ a, core.head? = some a → isPySpace a = false)
    (hop : ∀ o' ∈ openers, ciPrefix o' core = false)
    (hdol : ∀ a ∈ core ++ post, a ≠ '$')
    (hpost : post = [] ∨ ∃ rest, post = '\n' :: rest)
    (hlast : ∀ a, (core ++ post).getLast? = some a → isPySpace a = false)
    (hfence : hasSub fence (core ++ post) = false) :
    clean (clean (pre ++ (core ++ post))) = clean (pre ++ (core ++ post)) := by
  have hy : clean (core ++ post) = core ++ post :=
    clean_noop_family core post hcore hh hop hdol hpost hlast hfence
  rcases hpre_cases with hp | ⟨o, r, ho, hr, hp⟩
  · subst hp
    rw [List.nil_append, hy]
    exact hy
  · subst hp
    have hx : ((o ++ r) ++ ['\n']) ++ (core ++ post)
        = (o ++ r) ++ '\n' :: (core ++ post) := by simp
    rw [hx]
    have hfs : firstSubIdx fence (core ++ post) = none :=
      hasSub_false_firstSubIdx _ _ hfence
    have hh2 : ∀ a, (core ++ post).head? = some a → isPySpace a = false := by
      intro a ha
      rw [List.head?_append_of_ne_nil core hcore] at ha
      exact hh a ha
    have hpass1 : clean ((o ++ r) ++ '\n' :: (core ++ post)) = core ++ post := by
      simp only [clean, stripPreamble_exact o r (core ++ post) ho hr,
        stripClosers_noop (core ++ post) hdol, hfs]
      exact pyStrip_noop _ hh2 hlast
    rw [hpass1, hy]

/-- C9: `_clean_response` is idempotent on every representative input
consisting of substantive text, optionally preceded by a single leading
preamble line (an opener phrase, then arbitrary newline-free text, then a
newline) and/or followed by a single trailing follow-up sentence (a newline,
then a closer phrase, then arbitrary trailing text). Representative means:
the substantive text is non-empty, starts and ends with a non-whitespace
character, does not itself start with an opener phrase, and the input holds
no code fence and no literal dollar character outside the preamble line. -/
theorem clean_idempotent_family :
    ∀ (o cl r core tl : Str) (usePre usePost : Bool),
      o ∈ openers → cl ∈ closers →
      (∀ a ∈ r, a ≠ '\n') →
      core ≠ [] →
      core.head?.all (fun a => !isPySpace a) = true →
      core.getLast?.all (fun a => !isPySpace a) = true →
      (∀ a ∈ core, a ≠ '$') →
      (∀ o' ∈ openers, ciPrefix o' core = false) →
      (∀ a ∈ tl, a ≠ '$') →
      tl.getLast?.all (fun a => !isPySpace a) = true →
      hasSub fence (core ++ (if usePost then '\n' :: (cl ++ tl) else [])) = false →
      clean (clean ((if usePre then (o ++ r) ++ ['\n'] else [])
          ++ (core ++ (if usePost then '\n' :: (cl ++ tl) else []))))
        = clean ((if usePre then (o ++ r) ++ ['\n'] else [])
          ++ (core ++ (if usePost then '\n' :: (cl ++ tl) else []))) := by
  intro o cl r core tl usePre usePost ho hcl hr hcore hhb hlb hcd hop htd htlb hfence
  apply clean_idem_aux
  · cases usePre with
    | false => exact Or.inl (by simp)
    | true => exact Or.inr ⟨o, r, ho, hr, by simp⟩
  · exact hcore
  · intro a ha
    have := optAll_imp _ _ hhb a ha
    simpa using this
  · exact hop
  · intro a ha
    rcases List.mem_append.mp ha with h | h
    · exact hcd a h
    · cases usePost with
      | false => simp at h
      | true =>
        simp only [if_true] at h
        rcases List.mem_cons.mp h with h | h
        · subst h
          decide
        · rcases List.mem_append.mp h with h | h
          · exact closers_no_dollar cl hcl a h
          · exact htd a h
  · cases usePost with
    | false => exact Or.inl (by simp)
    | true => exact Or.inr ⟨cl ++ tl, by simp⟩
  · intro a ha
    cases usePost with
    | false =>
      simp only [Bool.false_eq_true, if_false, List.append_nil] at ha
      have := optAll_imp _ _ hlb a ha
      simpa using this
    | true =>
      simp only [if_true] at ha
      rw [List.getLast?_append_of_ne_nil core (by simp)] at ha
      rcases htlnil : tl with _ | ⟨t, ts⟩
      · rw [htlnil] at ha
        rw [show ('\n' :: (cl ++ ([] : Str))) = ['\n'] ++ cl from by simp] at ha
        rw [List.getLast?_append_of_ne_nil ['\n'] (closers_ne_nil cl hcl)] at ha
        have := optAll_imp _ _ (closers_last_not_space cl hcl) a ha
        simpa using this
      · rw [htlnil] at ha
        rw [show ('\n' :: (cl ++ (t :: ts))) = ('\n' :: cl) ++ (t :: ts) from by simp]
          at ha
        rw [List.getLast?_append_of_ne_nil ('\n' :: cl) (by simp)] at ha
        have := optAll_imp _ _ htlb a (by rw [htlnil]; exact ha)
        simpa using this
  · exact hfence

/-- C9 witness: a concrete input with both a preamble line and a trailing
follow-up sentence; cleaning it twice equals cleaning it once. -/
theorem clean_idempotent_family_witness :
    clean (clean ((((str "Sure") ++ (str " thing")) ++ ['\n'])
        ++ ((str "x = 1") ++ '\n' :: ((str "Let me know") ++ (str ", thanks.")))))
      = clean ((((str "Sure") ++ (str " thing")) ++ ['\n'])
        ++ ((str "x = 1") ++ '\n' :: ((str "Let me know") ++ (str ", thanks.")))) := by
  have h := clean_idempotent_family (str "Sure") (str "Let me know") (str " thing")
    (str "x = 1") (str ", thanks.") true true
    (by decide) (by decide) (by decide) (by decide) (by decide) (by decide)
    (by decide) (by decide) (by decide) (by decide) (by decide)
  simpa using h

end RealTutor
